import Mathlib

/-!
Verification of the tile-assignment engine of the photo-mosaic program
(`bmp_mosaic_base_andrew.cpp`, with the data structures of `mosaic.h`).

The embedding models, from the source:
  * the per-cell candidate ranking (`tile_rank_fits`, `compare_tiles`),
  * the sparse greedy fitter (`fit_check_repeated`, `fit_best_pick_sparse`,
    `tile_place_best_fit`) and the fitting pass of `main`,
  * the size computation of `get_mosaic_metadata` together with the
    `if (check) return 0;` gate in `main`,
  * the RMS color-signature accumulation of `get_component_file_weight`,
  * the region of the reference image sampled by the cell-scoring loops of
    `get_mosaic_metadata`,
  * the per-pixel color filter of `write_full_img`.

Machine integers are modelled as ℕ/ℤ (all quantities involved stay far from
the 32-bit overflow boundary on the verified paths); `float` values are
modelled exactly (ℚ), except where IEEE NaN behavior decides a branch, where
an explicit NaN-carrying type is used.
-/

/-- Model of a 24-bit pixel or stored color signature (`rgb_t` of
bitmap_image.hpp): one byte value per channel, held as a natural number. -/
structure rgb_t where
  red : ℕ
  green : ℕ
  blue : ℕ
deriving DecidableEq, Repr

/-- Entry of a per-cell ranking (`mosaic_map` in mosaic.h): `index` points into
the component list, `value` holds the distance stored by `tile_rank_fits`. -/
structure mosaic_map where
  index : ℕ
  value : ℤ
deriving DecidableEq, Repr

/-- Comparator handed to std::sort (src 402-405):
`abs(img1.value) < abs(img2.value)`. -/
def compare_tiles (img1 img2 : mosaic_map) : Bool :=
  decide (|img1.value| < |img2.value|)

/-- The per-cell ranking list as built by the loop of `tile_rank_fits`
(src 420-429), before sorting: entry n carries index n and value
`abs(r + g + b)`, where r, g, b are the signed per-channel differences
between component n's signature and the cell's target signature. -/
def tile_rank_unsorted (components : List rgb_t) (tile : rgb_t) : List mosaic_map :=
  (List.range components.length).map fun n =>
    let cn := components.getD n ⟨0, 0, 0⟩
    let r : ℤ := (cn.red : ℤ) - (tile.red : ℤ)
    let g : ℤ := (cn.green : ℤ) - (tile.green : ℤ)
    let b : ℤ := (cn.blue : ℤ) - (tile.blue : ℤ)
    { index := n, value := |r + g + b| }

/-- Sortedness guaranteed by std::sort: every adjacent pair a, b of the output
satisfies comp(b, a) = false. -/
def sorted_by_comp : List mosaic_map → Bool
  | [] => true
  | [_] => true
  | a :: b :: t => !compare_tiles b a && sorted_by_comp (b :: t)

/-- Result relation of the `sort` call of `tile_rank_fits` (src 432).
std::sort guarantees that the output is a permutation of the input that is
sorted with respect to the comparator; it guarantees nothing about the
relative order of elements the comparator cannot distinguish (std::sort,
unlike std::stable_sort, is not stable). -/
def tile_rank_fits (components : List rgb_t) (tile : rgb_t)
    (res : List mosaic_map) : Prop :=
  res.Perm (tile_rank_unsorted components tile) ∧ sorted_by_comp res = true

instance (components : List rgb_t) (tile : rgb_t) (res : List mosaic_map) :
    Decidable (tile_rank_fits components tile res) :=
  inferInstanceAs (Decidable (res.Perm (tile_rank_unsorted components tile) ∧
    sorted_by_comp res = true))

/-- Tie-breaking property asserted by the spec: candidates at equal absolute
distance appear in their original candidate-index (insertion) order. -/
def stable_on_ties : List mosaic_map → Bool
  | [] => true
  | a :: t =>
    (t.all fun b => !(|a.value| == |b.value|) || decide (a.index < b.index)) &&
      stable_on_ties t

instance : IsTrans mosaic_map fun a b => |a.value| ≤ |b.value| :=
  ⟨fun _ _ _ h1 h2 => le_trans h1 h2⟩

/-- Any std::sort-contract-abiding result is pairwise nondecreasing in
absolute distance. -/
theorem rank_result_pairwise (res : List mosaic_map)
    (h : sorted_by_comp res = true) :
    res.Pairwise fun a b => |a.value| ≤ |b.value| := by
  have hc : res.Chain' fun a b => |a.value| ≤ |b.value| := by
    induction res with
    | nil => simp
    | cons a t ih =>
      cases t with
      | nil => simp
      | cons b t2 =>
        simp only [sorted_by_comp, Bool.and_eq_true, Bool.not_eq_true'] at h
        refine List.chain'_cons.mpr ⟨?_, ih ?_⟩
        · have hb : ¬ (|b.value| < |a.value|) := by
            have := h.1
            simp only [compare_tiles, decide_eq_false_iff_not] at this
            exact this
          omega
        · exact h.2
  exact List.chain'_iff_pairwise.mp hc

/-- C1, counterexample: with two candidates at equal distance 5 from the
target, the reversed order is a valid std::sort result of `tile_rank_fits`
(permutation, sorted w.r.t. `compare_tiles`), yet the two equal-distance
candidates do not appear in insertion order: the stability the claim asserts
is not guaranteed by the code. -/
theorem C1_counterexample :
    tile_rank_fits [⟨105, 100, 100⟩, ⟨105, 100, 100⟩] ⟨100, 100, 100⟩
        [⟨1, 5⟩, ⟨0, 5⟩] ∧
      stable_on_ties [⟨1, 5⟩, ⟨0, 5⟩] = false := by
  decide

/-- C1, amended: every ranked candidate sequence produced by the ranker is
sorted ascending by absolute color distance; the relative order of candidates
at equal distance is unspecified (the code sorts with std::sort, which is not
stable). -/
theorem C1_sorted_ascending (components : List rgb_t) (tile : rgb_t)
    (res : List mosaic_map) (h : tile_rank_fits components tile res) :
    res.Pairwise fun a b => |a.value| ≤ |b.value| :=
  rank_result_pairwise res h.2

/-- Witness for C1 at a concrete input. -/
theorem C1_sorted_ascending_witness :
    tile_rank_fits [⟨105, 100, 100⟩] ⟨100, 100, 100⟩ [⟨0, 5⟩] ∧
      List.Pairwise (fun a b => |a.value| ≤ |b.value|)
        [(⟨0, 5⟩ : mosaic_map)] :=
  ⟨by decide, C1_sorted_ascending [⟨105, 100, 100⟩] ⟨100, 100, 100⟩ [⟨0, 5⟩]
    ⟨by decide, by decide⟩⟩

/-- C7: the ranking distance is the absolute value of the signed sum of
per-channel differences, so opposite-direction differences cancel: against
target (100,100,100), candidate (110,90,100) has distance 0 and every valid
sort of the three example candidates ranks it first, ahead of (90,100,100)
(distance 10) and (100,100,120) (distance 20). -/
theorem C7_distance_metric :
    (∀ (components : List rgb_t) (tile : rgb_t) (n : ℕ), n < components.length →
        ((tile_rank_unsorted components tile).getD n ⟨0, 0⟩).value =
          |(((components.getD n ⟨0, 0, 0⟩).red : ℤ) - (tile.red : ℤ)) +
            (((components.getD n ⟨0, 0, 0⟩).green : ℤ) - (tile.green : ℤ)) +
            (((components.getD n ⟨0, 0, 0⟩).blue : ℤ) - (tile.blue : ℤ))|) ∧
      tile_rank_unsorted [⟨110, 90, 100⟩, ⟨90, 100, 100⟩, ⟨100, 100, 120⟩]
          ⟨100, 100, 100⟩ = [⟨0, 0⟩, ⟨1, 10⟩, ⟨2, 20⟩] ∧
      ∀ res : List mosaic_map,
        tile_rank_fits [⟨110, 90, 100⟩, ⟨90, 100, 100⟩, ⟨100, 100, 120⟩]
            ⟨100, 100, 100⟩ res →
          res.getD 0 ⟨9, 9⟩ = ⟨0, 0⟩ := by
  refine ⟨?_, by decide, ?_⟩
  · intro components tile n hn
    simp [tile_rank_unsorted, List.getD_eq_getElem?_getD, List.getElem?_map,
      List.getElem?_range, hn]
  · intro res hres
    have e : tile_rank_unsorted [⟨110, 90, 100⟩, ⟨90, 100, 100⟩, ⟨100, 100, 120⟩]
        ⟨100, 100, 100⟩ = [⟨0, 0⟩, ⟨1, 10⟩, ⟨2, 20⟩] := by decide
    have hp := hres.1
    rw [e] at hp
    have hpw := rank_result_pairwise res hres.2
    cases res with
    | nil => simpa using hp.length_eq
    | cons a t =>
      have ha : a ∈ [(⟨0, 0⟩ : mosaic_map), ⟨1, 10⟩, ⟨2, 20⟩] :=
        hp.subset (List.mem_cons_self a t)
      have h0 : (⟨0, 0⟩ : mosaic_map) ∈ a :: t := hp.mem_iff.mpr (by simp)
      rw [List.pairwise_cons] at hpw
      simp only [List.mem_cons, List.mem_singleton, List.not_mem_nil,
        or_false] at ha
      rcases ha with ha | ha | ha
      · simp [ha]
      · rcases List.mem_cons.mp h0 with h | h
        · rw [ha] at h
          exact absurd h (by decide)
        · have hle := hpw.1 _ h
          rw [ha] at hle
          norm_num at hle
      · rcases List.mem_cons.mp h0 with h | h
        · rw [ha] at h
          exact absurd h (by decide)
        · have hle := hpw.1 _ h
          rw [ha] at hle
          norm_num at hle

/-- Witness for C7's universally quantified parts at concrete inputs. -/
theorem C7_distance_metric_witness :
    tile_rank_fits [⟨110, 90, 100⟩, ⟨90, 100, 100⟩, ⟨100, 100, 120⟩]
        ⟨100, 100, 100⟩ [⟨0, 0⟩, ⟨1, 10⟩, ⟨2, 20⟩] ∧
      List.getD [⟨0, 0⟩, ⟨1, 10⟩, ⟨2, 20⟩] 0 ⟨9, 9⟩ = (⟨0, 0⟩ : mosaic_map) :=
  ⟨⟨by decide, by decide⟩,
    C7_distance_metric.2.2 [⟨0, 0⟩, ⟨1, 10⟩, ⟨2, 20⟩] ⟨by decide, by decide⟩⟩

/-- Cross-cell mutable state of the fitter: the per-component placed counters
(`component_metadata.placed`, src mosaic.h) and the per-cell assignment
(`mosaic_tile.img_index`, -1 while unassigned). -/
structure FitState where
  placed : List ℕ
  tiles : List ℤ
deriving DecidableEq, Repr

/-- Model of `fit_check_repeated` (src 337-352): scan row and col offsets in
[-TILE_MIN_DIST, TILE_MIN_DIST]; form the linear index
loc = (tile_index / cols + row) * cols + (tile_index % cols + col) and report a
hit when 0 ≤ loc < TOTAL_TILES and tiles[loc] holds img_index. The column
offset is never bounds-checked against the grid's columns, so loc can denote a
cell on a neighboring row (wrap-around at the left/right grid edges).
Unassigned cells hold -1, which the int-vs-unsigned comparison of the source
can never match, so only committed assignments register. -/
def fit_check_repeated (cols total D : ℕ) (tiles : List ℤ)
    (tile_index img_index : ℕ) : Bool :=
  (List.range (2 * D + 1)).any fun ri =>
    (List.range (2 * D + 1)).any fun ci =>
      let r : ℤ := ((tile_index / cols : ℕ) : ℤ) + ((ri : ℤ) - (D : ℤ))
      let c : ℤ := ((tile_index % cols : ℕ) : ℤ) + ((ci : ℤ) - (D : ℤ))
      let loc : ℤ := r * (cols : ℤ) + c
      decide (loc < (total : ℤ) ∧ 0 ≤ loc) &&
        decide (tiles.getD loc.toNat (-1) = (img_index : ℤ))

/-- The while loop of `fit_best_pick_sparse` (src 369-373). The fuel argument
equals components_size - n, so the recursion is structural and the loop stops
exactly when n reaches components_size: while n < components_size and
(placed[img_index] ≥ TILE_RPT_COUNT or seen), load img_index from the ranked
list at position n, recompute seen for it, and advance n. -/
def fit_pick_loop (R cols total D : ℕ) (placed : List ℕ) (tiles : List ℤ)
    (tmap : List ℕ) (tile_index : ℕ) : ℕ → ℕ → ℕ → Bool → ℕ
  | 0, _, img_index, _ => img_index
  | gas + 1, n, img_index, seen =>
    if R ≤ placed.getD img_index 0 ∨ seen = true then
      fit_pick_loop R cols total D placed tiles tmap tile_index gas (n + 1)
        (tmap.getD n 0)
        (fit_check_repeated cols total D tiles tile_index (tmap.getD n 0))
    else img_index

/-- Model of `fit_best_pick_sparse` (src 358-376): the scan starts at rank 0
with img_index = tile_map[tile_index][0].index and seen = 1. -/
def fit_best_pick_sparse (csize R cols total D : ℕ) (placed : List ℕ)
    (tiles : List ℤ) (tmap : List ℕ) (tile_index : ℕ) : ℕ :=
  fit_pick_loop R cols total D placed tiles tmap tile_index csize 0
    (tmap.getD 0 0) true

/-- Model of `tile_place_best_fit` (src 381-394): pick via
`fit_best_pick_sparse`, store the pick in tiles[tile_index].img_index and
increment components[pick].placed. -/
def tile_place_best_fit (csize R cols total D : ℕ) (tmaps : List (List ℕ))
    (st : FitState) (tile_index : ℕ) : FitState :=
  let img := fit_best_pick_sparse csize R cols total D st.placed st.tiles
    (tmaps.getD tile_index []) tile_index
  { placed := st.placed.set img (st.placed.getD img 0 + 1),
    tiles := st.tiles.set tile_index (img : ℤ) }

/-- State of the fitting pass of `main` (src 778-779) after the first k cells:
cells are visited in row-major order 0, 1, …, TOTAL_TILES - 1, starting from
all counters 0 and all cells unassigned. -/
def fit_states (csize R cols total D : ℕ) (tmaps : List (List ℕ)) (k : ℕ) :
    FitState :=
  (List.range k).foldl (tile_place_best_fit csize R cols total D tmaps)
    { placed := List.replicate csize 0, tiles := List.replicate total (-1) }

/-- Acceptability of candidate c as the code computes it: placed counter below
the repeat cap and `fit_check_repeated` reports no hit. -/
def code_acceptable (R cols total D : ℕ) (placed : List ℕ) (tiles : List ℤ)
    (tile_index c : ℕ) : Bool :=
  decide (placed.getD c 0 < R) &&
    ! fit_check_repeated cols total D tiles tile_index c

/-- Acceptability of candidate c as the spec words it: usage counter < R and no
already-assigned cell whose row offset and column offset from the current cell
are both within ±D holds candidate index c. The neighbor is a genuine grid
cell: its row and column both lie inside the grid. Stated from the spec for
comparison with `code_acceptable`. -/
def spec_acceptable (R rows cols D : ℕ) (placed : List ℕ) (tiles : List ℤ)
    (tile_index c : ℕ) : Bool :=
  decide (placed.getD c 0 < R) &&
    ! ((List.range (2 * D + 1)).any fun ri =>
      (List.range (2 * D + 1)).any fun ci =>
        let r : ℤ := ((tile_index / cols : ℕ) : ℤ) + ((ri : ℤ) - (D : ℤ))
        let c2 : ℤ := ((tile_index % cols : ℕ) : ℤ) + ((ci : ℤ) - (D : ℤ))
        decide (0 ≤ r ∧ r < (rows : ℤ) ∧ 0 ≤ c2 ∧ c2 < (cols : ℤ) ∧
          tiles.getD (r * (cols : ℤ) + c2).toNat (-1) = (c : ℤ)))

/-- First spec-acceptable candidate of a ranked list, the candidate the claim
says the fitter commits. -/
def spec_first_acceptable (R rows cols D : ℕ) (placed : List ℕ)
    (tiles : List ℤ) (tile_index : ℕ) (tmap : List ℕ) : Option ℕ :=
  tmap.find? (spec_acceptable R rows cols D placed tiles tile_index)

/-- The candidate the code actually returns: the first code-acceptable entry of
the ranked list, or the last scanned entry when none is acceptable. -/
def first_code_acceptable (R cols total D : ℕ) (placed : List ℕ)
    (tiles : List ℤ) (tile_index : ℕ) (tmap : List ℕ) : ℕ :=
  (tmap.find? (code_acceptable R cols total D placed tiles tile_index)).getD
    (tmap.getLastD 0)

/-- C2, counterexample: 3x3 grid, D = 1, R = 9, two candidates, every cell
ranking [0, 1]. After cells 0 and 1 commit candidates 0 and 1, cell 2 (row 0,
column 2) commits candidate 1, although candidate 0 is the first candidate
acceptable in the claim's sense (no assigned cell with row and column offsets
within ±1 holds it): `fit_check_repeated` maps the out-of-range column offset
-1 at row offset -1 to linear index 0 (wrap-around to the far end of the
previous row), sees candidate 0 there, and rejects it. -/
theorem C2_counterexample :
    (tile_place_best_fit 2 9 3 9 1 (List.replicate 9 [0, 1])
          (fit_states 2 9 3 9 1 (List.replicate 9 [0, 1]) 2) 2).tiles.getD 2
        (-1) = 1 ∧
      spec_first_acceptable 9 3 3 1
          (fit_states 2 9 3 9 1 (List.replicate 9 [0, 1]) 2).placed
          (fit_states 2 9 3 9 1 (List.replicate 9 [0, 1]) 2).tiles 2 [0, 1] =
        some 0 := by
  decide

/-- C3, counterexample: 2x2 grid, a single candidate, R = 5, D = 1. Every cell
exhausts its ranked list (the lone candidate is always "seen") and the
unguarded fall-through commits it anyway, so the two horizontally adjacent
cells 0 and 1 — at Chebyshev grid distance 1 — both hold candidate 0 in the
committed assignment. -/
theorem C3_counterexample :
    (fit_states 1 5 2 4 1 (List.replicate 4 [0]) 4).tiles.getD 0 (-1) = 0 ∧
      (fit_states 1 5 2 4 1 (List.replicate 4 [0]) 4).tiles.getD 1 (-1) = 0 ∧
      |((0 / 2 : ℕ) : ℤ) - ((1 / 2 : ℕ) : ℤ)| ≤ 1 ∧
      |((0 % 2 : ℕ) : ℤ) - ((1 % 2 : ℕ) : ℤ)| ≤ 1 := by
  decide

/-- Characterization of the scan loop: started anywhere with the entry
condition satisfied, it returns the first code-acceptable candidate of the
remaining ranked suffix, or the last entry of the suffix (the last candidate
the scan touched) when none is acceptable. -/
theorem fit_pick_loop_find (R cols total D : ℕ) (placed : List ℕ)
    (tiles : List ℤ) (tmap : List ℕ) (ti : ℕ) :
    ∀ (gas n img : ℕ) (seen : Bool), gas + n = tmap.length →
      fit_pick_loop R cols total D placed tiles tmap ti gas n img seen =
        if R ≤ placed.getD img 0 ∨ seen = true then
          ((tmap.drop n).find?
              (code_acceptable R cols total D placed tiles ti)).getD
            ((tmap.drop n).getLastD img)
        else img := by
  intro gas
  induction gas with
  | zero =>
    intro n img seen hn
    have hdrop : tmap.drop n = [] := by
      have : n = tmap.length := by omega
      rw [this, List.drop_length]
    rw [fit_pick_loop, hdrop]
    split <;> rfl
  | succ gas ih =>
    intro n img seen hn
    have hlt : n < tmap.length := by omega
    have hget : tmap.getD n 0 = tmap[n] := by
      rw [List.getD_eq_getElem?_getD, List.getElem?_eq_getElem hlt]
      rfl
    have hdrop : tmap.drop n = tmap[n] :: tmap.drop (n + 1) :=
      List.drop_eq_getElem_cons hlt
    rw [fit_pick_loop]
    by_cases hcond : R ≤ placed.getD img 0 ∨ seen = true
    · rw [if_pos hcond, if_pos hcond,
        ih (n + 1) (tmap.getD n 0)
          (fit_check_repeated cols total D tiles ti (tmap.getD n 0))
          (by omega)]
      by_cases hacc :
          code_acceptable R cols total D placed tiles ti tmap[n] = true
      · have hacc2 := hacc
        simp only [code_acceptable, Bool.and_eq_true, decide_eq_true_eq,
          Bool.not_eq_true'] at hacc2
        rw [if_neg ?hng]
        case hng =>
          rw [hget]
          push_neg
          refine ⟨by omega, by simp [hacc2.2]⟩
        rw [hdrop, List.find?_cons_of_pos _ hacc, hget]
        rfl
      · have hacc2 : placed.getD tmap[n] 0 < R →
            fit_check_repeated cols total D tiles ti tmap[n] = true := by
          intro hc
          by_contra hf
          apply hacc
          simp only [code_acceptable, Bool.and_eq_true, decide_eq_true_eq,
            Bool.not_eq_true']
          exact ⟨hc, by simpa using hf⟩
        rw [if_pos ?side]
        case side =>
          rw [hget]
          rcases Nat.lt_or_ge (placed.getD tmap[n] 0) R with hc | hc
          · right
            exact hacc2 hc
          · left
            exact hc
        rw [hdrop, List.find?_cons_of_neg _ (by simp [hacc]),
          List.getLastD_cons, hget]
    · rw [if_neg hcond, if_neg hcond]

/-- C2, amended: for every cell, the sparse fitter walks the cell's ranked
list from rank 0 and commits the first candidate c that is code-acceptable —
usage counter < R and `fit_check_repeated` finds no cell of the scanned
linear-index window (row and column offsets within ±D combined into
loc = (row + dr)·cols + (col + dc), clamped to [0, total), which wraps across
row ends at the grid's left and right edges) holding c — or the last scanned
candidate when no entry is acceptable; on commit, c's usage counter is
incremented and c is recorded as the cell's assignment. -/
theorem C2_first_acceptable (csize R cols total D : ℕ) (tmaps : List (List ℕ))
    (st : FitState) (ti : ℕ)
    (hlen : (tmaps.getD ti []).length = csize)
    (hne : tmaps.getD ti [] ≠ [])
    (hti : ti < st.tiles.length)
    (hmem : ∀ c ∈ tmaps.getD ti [], c < st.placed.length) :
    fit_best_pick_sparse csize R cols total D st.placed st.tiles
        (tmaps.getD ti []) ti =
      first_code_acceptable R cols total D st.placed st.tiles ti
        (tmaps.getD ti []) ∧
    (tile_place_best_fit csize R cols total D tmaps st ti).tiles.getD ti (-1) =
      ((first_code_acceptable R cols total D st.placed st.tiles ti
        (tmaps.getD ti []) : ℕ) : ℤ) ∧
    (tile_place_best_fit csize R cols total D tmaps st ti).placed.getD
        (first_code_acceptable R cols total D st.placed st.tiles ti
          (tmaps.getD ti [])) 0 =
      st.placed.getD (first_code_acceptable R cols total D st.placed st.tiles
        ti (tmaps.getD ti [])) 0 + 1 := by
  set tmap := tmaps.getD ti [] with htmap
  have hpick : fit_best_pick_sparse csize R cols total D st.placed st.tiles
      tmap ti =
      first_code_acceptable R cols total D st.placed st.tiles ti tmap := by
    rw [fit_best_pick_sparse,
      fit_pick_loop_find R cols total D st.placed st.tiles tmap ti csize 0
        (tmap.getD 0 0) true (by omega), if_pos (Or.inr rfl), List.drop_zero,
      first_code_acceptable]
    rcases List.exists_cons_of_ne_nil hne with ⟨a, t, hat⟩
    rw [hat]
    rfl
  refine ⟨hpick, ?_, ?_⟩
  · rw [tile_place_best_fit]
    simp only [← htmap, hpick]
    rw [List.getD_eq_getElem?_getD, List.getElem?_set_self hti]
    rfl
  · rw [tile_place_best_fit]
    simp only [← htmap, hpick]
    have hmem2 : first_code_acceptable R cols total D st.placed st.tiles ti
        tmap ∈ tmap := by
      rw [first_code_acceptable]
      cases hf : tmap.find?
          (code_acceptable R cols total D st.placed st.tiles ti) with
      | none =>
        rcases List.exists_cons_of_ne_nil hne with ⟨a, t, hat⟩
        rw [hat, List.getLastD_cons, Option.getD_none]
        exact List.getLastD_mem_cons t a
      | some c =>
        rw [Option.getD_some]
        exact List.mem_of_find?_eq_some hf
    have hlt2 := hmem _ hmem2
    rw [List.getD_eq_getElem?_getD, List.getElem?_set_self hlt2]
    rfl

/-- Witness for C2 at the 3x3 run of the counterexample scenario: the code's
pick at cell 2 equals the first code-acceptable candidate (here the
exhaustion fallback, candidate 1), and the commit records it and bumps the
counter. -/
theorem C2_first_acceptable_witness :
    fit_best_pick_sparse 2 9 3 9 1
        (fit_states 2 9 3 9 1 (List.replicate 9 [0, 1]) 2).placed
        (fit_states 2 9 3 9 1 (List.replicate 9 [0, 1]) 2).tiles
        ((List.replicate 9 [0, 1]).getD 2 []) 2 =
      first_code_acceptable 9 3 9 1
        (fit_states 2 9 3 9 1 (List.replicate 9 [0, 1]) 2).placed
        (fit_states 2 9 3 9 1 (List.replicate 9 [0, 1]) 2).tiles 2
        ((List.replicate 9 [0, 1]).getD 2 []) ∧
    (tile_place_best_fit 2 9 3 9 1 (List.replicate 9 [0, 1])
        (fit_states 2 9 3 9 1 (List.replicate 9 [0, 1]) 2) 2).tiles.getD 2
        (-1) =
      ((first_code_acceptable 9 3 9 1
        (fit_states 2 9 3 9 1 (List.replicate 9 [0, 1]) 2).placed
        (fit_states 2 9 3 9 1 (List.replicate 9 [0, 1]) 2).tiles 2
        ((List.replicate 9 [0, 1]).getD 2 []) : ℕ) : ℤ) ∧
    (tile_place_best_fit 2 9 3 9 1 (List.replicate 9 [0, 1])
        (fit_states 2 9 3 9 1 (List.replicate 9 [0, 1]) 2) 2).placed.getD
        (first_code_acceptable 9 3 9 1
          (fit_states 2 9 3 9 1 (List.replicate 9 [0, 1]) 2).placed
          (fit_states 2 9 3 9 1 (List.replicate 9 [0, 1]) 2).tiles 2
          ((List.replicate 9 [0, 1]).getD 2 [])) 0 =
      (fit_states 2 9 3 9 1 (List.replicate 9 [0, 1]) 2).placed.getD
        (first_code_acceptable 9 3 9 1
          (fit_states 2 9 3 9 1 (List.replicate 9 [0, 1]) 2).placed
          (fit_states 2 9 3 9 1 (List.replicate 9 [0, 1]) 2).tiles 2
          ((List.replicate 9 [0, 1]).getD 2 [])) 0 + 1 :=
  C2_first_acceptable 2 9 3 9 1 (List.replicate 9 [0, 1])
    (fit_states 2 9 3 9 1 (List.replicate 9 [0, 1]) 2) 2 (by decide)
    (by decide) (by decide) (by decide)

/-- Unfolding of one fitting step: the state after k + 1 cells is the state
after k cells with cell k placed. -/
theorem fit_states_succ (csize R cols total D : ℕ) (tmaps : List (List ℕ))
    (k : ℕ) :
    fit_states csize R cols total D tmaps (k + 1) =
      tile_place_best_fit csize R cols total D tmaps
        (fit_states csize R cols total D tmaps k) k := by
  rw [fit_states, fit_states, List.range_succ, List.foldl_append]
  rfl

/-- The assignment array keeps its length (one slot per cell) throughout the
fitting pass. -/
theorem fit_states_tiles_length (csize R cols total D : ℕ)
    (tmaps : List (List ℕ)) (k : ℕ) :
    (fit_states csize R cols total D tmaps k).tiles.length = total := by
  induction k with
  | zero => simp [fit_states]
  | succ k ih =>
    rw [fit_states_succ, tile_place_best_fit]
    simpa using ih

/-- Once cell i is committed, later fitting steps never change its
assignment. -/
theorem fit_states_tiles_stable (csize R cols total D : ℕ)
    (tmaps : List (List ℕ)) (i k1 k2 : ℕ) (h1 : i < k1) (h12 : k1 ≤ k2) :
    (fit_states csize R cols total D tmaps k2).tiles.getD i (-1) =
      (fit_states csize R cols total D tmaps k1).tiles.getD i (-1) := by
  induction k2 with
  | zero => omega
  | succ k2 ih =>
    rcases Nat.lt_or_ge k1 (k2 + 1) with hlt | hge
    · have hik2 : i ≠ k2 := by omega
      rw [fit_states_succ, tile_place_best_fit]
      simp only [List.getD_eq_getElem?_getD]
      rw [List.getElem?_set_ne (by omega)]
      simp only [← List.getD_eq_getElem?_getD]
      exact ih (by omega)
    · have : k1 = k2 + 1 := by omega
      rw [this]

/-- The assignment committed at step k is the pick computed in the state after
the first k cells. -/
theorem fit_states_commit (csize R cols total D : ℕ) (tmaps : List (List ℕ))
    (k : ℕ) (hk : k < total) :
    (fit_states csize R cols total D tmaps (k + 1)).tiles.getD k (-1) =
      ((fit_best_pick_sparse csize R cols total D
        (fit_states csize R cols total D tmaps k).placed
        (fit_states csize R cols total D tmaps k).tiles
        (tmaps.getD k []) k : ℕ) : ℤ) := by
  rw [fit_states_succ, tile_place_best_fit]
  simp only [List.getD_eq_getElem?_getD]
  rw [List.getElem?_set_self (by rw [fit_states_tiles_length]; omega)]
  rfl

/-- A false `fit_check_repeated` answer rules out the candidate on every
genuine cell of the ±D window: if cell i lies within row and column offsets
±D of cell j, the assignment of i is not the checked candidate. -/
theorem check_false_no_box_hit (cols total D : ℕ) (tiles : List ℤ) (j c : ℕ)
    (h : fit_check_repeated cols total D tiles j c = false) (i : ℕ)
    (hi : i < total)
    (hdr : |((i / cols : ℕ) : ℤ) - ((j / cols : ℕ) : ℤ)| ≤ (D : ℤ))
    (hdc : |((i % cols : ℕ) : ℤ) - ((j % cols : ℕ) : ℤ)| ≤ (D : ℤ)) :
    tiles.getD i (-1) ≠ (c : ℤ) := by
  intro heq
  rw [fit_check_repeated, List.any_eq_false] at h
  have hdr2 := abs_le.mp hdr
  have hdc2 := abs_le.mp hdc
  have hri : (((i / cols : ℕ) : ℤ) - ((j / cols : ℕ) : ℤ) + (D : ℤ)).toNat ∈
      List.range (2 * D + 1) := List.mem_range.mpr (by omega)
  have h1 := h _ hri
  rw [Bool.not_eq_true, List.any_eq_false] at h1
  have hci : (((i % cols : ℕ) : ℤ) - ((j % cols : ℕ) : ℤ) + (D : ℤ)).toNat ∈
      List.range (2 * D + 1) := List.mem_range.mpr (by omega)
  have h2 := h1 _ hci
  rw [Bool.not_eq_true] at h2
  simp only [Bool.and_eq_false_iff, decide_eq_false_iff_not] at h2
  have hr : ((j / cols : ℕ) : ℤ) +
      ((((((i / cols : ℕ) : ℤ) - ((j / cols : ℕ) : ℤ) + (D : ℤ)).toNat : ℕ) :
        ℤ) - (D : ℤ)) = ((i / cols : ℕ) : ℤ) := by omega
  have hc2v : ((j % cols : ℕ) : ℤ) +
      ((((((i % cols : ℕ) : ℤ) - ((j % cols : ℕ) : ℤ) + (D : ℤ)).toNat : ℕ) :
        ℤ) - (D : ℤ)) = ((i % cols : ℕ) : ℤ) := by omega
  rw [hr, hc2v] at h2
  have hn : i / cols * cols + i % cols = i := by
    rw [Nat.mul_comm]
    exact Nat.div_add_mod i cols
  have hloc : ((i / cols : ℕ) : ℤ) * (cols : ℤ) + ((i % cols : ℕ) : ℤ) =
      (i : ℤ) := by
    exact_mod_cast hn
  rw [hloc] at h2
  rcases h2 with h2 | h2
  · have hlt : (i : ℤ) < (total : ℤ) := by exact_mod_cast hi
    exact h2 ⟨hlt, by omega⟩
  · rw [Int.toNat_natCast] at h2
    exact h2 heq

/-- C3, amended: provided every cell's scan committed a candidate that passed
`fit_check_repeated` at commit time (no exhaustion fall-through — the code
silently keeps the last scanned candidate when the whole ranked list is
rejected, which can violate the property), no two distinct cells whose row and
column offsets are both within ±D hold the same candidate index in the
committed assignment. -/
theorem C3_no_nearby_repeats (csize R cols total D : ℕ)
    (tmaps : List (List ℕ))
    (hproper : ∀ k, k < total →
      fit_check_repeated cols total D
          (fit_states csize R cols total D tmaps k).tiles k
          ((fit_states csize R cols total D tmaps (k + 1)).tiles.getD k
            (-1)).toNat = false) :
    ∀ i j, i < total → j < total → i ≠ j →
      |((i / cols : ℕ) : ℤ) - ((j / cols : ℕ) : ℤ)| ≤ (D : ℤ) →
      |((i % cols : ℕ) : ℤ) - ((j % cols : ℕ) : ℤ)| ≤ (D : ℤ) →
      (fit_states csize R cols total D tmaps total).tiles.getD i (-1) ≠
        (fit_states csize R cols total D tmaps total).tiles.getD j (-1) := by
  have aux : ∀ i j, i < total → j < total → i < j →
      |((i / cols : ℕ) : ℤ) - ((j / cols : ℕ) : ℤ)| ≤ (D : ℤ) →
      |((i % cols : ℕ) : ℤ) - ((j % cols : ℕ) : ℤ)| ≤ (D : ℤ) →
      (fit_states csize R cols total D tmaps total).tiles.getD i (-1) ≠
        (fit_states csize R cols total D tmaps total).tiles.getD j (-1) := by
    intro i j hi hj hij hdr hdc heq
    have hcommit := fit_states_commit csize R cols total D tmaps j hj
    have hfj : (fit_states csize R cols total D tmaps total).tiles.getD j
        (-1) =
        (fit_states csize R cols total D tmaps (j + 1)).tiles.getD j (-1) :=
      fit_states_tiles_stable csize R cols total D tmaps j (j + 1) total
        (by omega) (by omega)
    have hfi : (fit_states csize R cols total D tmaps total).tiles.getD i
        (-1) =
        (fit_states csize R cols total D tmaps j).tiles.getD i (-1) := by
      rw [fit_states_tiles_stable csize R cols total D tmaps i (i + 1) total
        (by omega) (by omega),
        fit_states_tiles_stable csize R cols total D tmaps i (i + 1) j
        (by omega) (by omega)]
    have hchk := hproper j hj
    rw [hcommit, Int.toNat_natCast] at hchk
    have hne := check_false_no_box_hit cols total D
      (fit_states csize R cols total D tmaps j).tiles j _ hchk i hi hdr hdc
    rw [hfi, hfj, hcommit] at heq
    exact hne heq
  intro i j hi hj hij hdr hdc
  rcases Nat.lt_trichotomy i j with h | h | h
  · exact aux i j hi hj h hdr hdc
  · exact absurd h hij
  · exact fun heq =>
      aux j i hj hi h (by rw [abs_sub_comm]; exact hdr)
        (by rw [abs_sub_comm]; exact hdc) heq.symm

/-- Witness for C3 on a 2x2 grid with four candidates, R = 5, D = 1: every
cell's commit passes the spatial check, and the resulting assignment has no
repeats anywhere (each cell gets a distinct candidate). -/
theorem C3_no_nearby_repeats_witness :
    (∀ k, k < 4 → fit_check_repeated 2 4 1
        (fit_states 4 5 2 4 1 (List.replicate 4 [0, 1, 2, 3]) k).tiles k
        ((fit_states 4 5 2 4 1 (List.replicate 4 [0, 1, 2, 3])
          (k + 1)).tiles.getD k (-1)).toNat = false) ∧
      ∀ i j, i < 4 → j < 4 → i ≠ j →
        |((i / 2 : ℕ) : ℤ) - ((j / 2 : ℕ) : ℤ)| ≤ (1 : ℤ) →
        |((i % 2 : ℕ) : ℤ) - ((j % 2 : ℕ) : ℤ)| ≤ (1 : ℤ) →
        (fit_states 4 5 2 4 1 (List.replicate 4 [0, 1, 2, 3]) 4).tiles.getD i
            (-1) ≠
          (fit_states 4 5 2 4 1 (List.replicate 4 [0, 1, 2, 3]) 4).tiles.getD
            j (-1) :=
  ⟨by decide,
    C3_no_nearby_repeats 4 5 2 4 1 (List.replicate 4 [0, 1, 2, 3])
      (by decide)⟩

/-- A 32-bit float as needed on the verified paths: either NaN or an exact
value. The quantities reaching comparisons here are small integer quotients,
so rounding never moves a comparison across its boundary on these paths; what
matters is IEEE special-value behavior: 0.0f/0.0f is NaN, NaN propagates
through subtraction and abs, and every `<` / `<=` comparison involving NaN is
false. Division of a nonzero value by zero yields an IEEE infinity, which on
the paths below behaves exactly like NaN (it propagates and fails every
comparison used), so it is folded into nan. -/
inductive FVal where
  | nan : FVal
  | val : ℚ → FVal
deriving DecidableEq, Repr

/-- Float division as used in `get_mosaic_metadata`. -/
def fdiv (a b : ℚ) : FVal :=
  if b = 0 then FVal.nan else FVal.val (a / b)

/-- Float subtraction; NaN propagates. -/
def fsub : FVal → FVal → FVal
  | FVal.val x, FVal.val y => FVal.val (x - y)
  | _, _ => FVal.nan

/-- Float abs; NaN propagates. -/
def fabs : FVal → FVal
  | FVal.nan => FVal.nan
  | FVal.val x => FVal.val |x|

/-- Float `<=` against a finite bound; false when the left side is NaN. -/
def fle (a : FVal) (b : ℚ) : Bool :=
  match a with
  | FVal.nan => false
  | FVal.val x => decide (x ≤ b)

/-- Float `<`; false when either side is NaN. -/
def flt : FVal → FVal → Bool
  | FVal.val x, FVal.val y => decide (x < y)
  | _, _ => false

/-- Return value and tile-size fields of `get_mosaic_metadata` (src 578-707):
ret = 0 for success, 1 for the "cropped value too low" failure. The cmp
fields model the globals mosaic.cmp_width and mosaic.cmp_height,
zero-initialized and written only when a scan accepts a size. -/
structure MetaResult where
  ret : ℕ
  cmp_width : ℕ
  cmp_height : ℕ
deriving DecidableEq, Repr

/-- Height scan of `get_mosaic_metadata` (src 597-613): new_height counts down
from cmp_img_min_height; accept the first height whose aspect error is within
ASP_RATIO_ERR (then cmp_width = cmp_img_min_width); return 1 when the floor
check (new_height ≤ 20) fires; when started at 0 the loop body never runs and
the function falls through to return 0 with the cmp fields still zero. -/
def crop_height_loop (ra : FVal) (minw : ℕ) (eps : ℚ) : ℕ → MetaResult
  | 0 => { ret := 0, cmp_width := 0, cmp_height := 0 }
  | nh + 1 =>
    if fle (fabs (fsub ra (fdiv (minw : ℚ) ((nh + 1 : ℕ) : ℚ)))) eps = true then
      { ret := 0, cmp_width := minw, cmp_height := nh + 1 }
    else if nh + 1 ≤ 20 then
      { ret := 1, cmp_width := 0, cmp_height := 0 }
    else crop_height_loop ra minw eps nh

/-- Width scan of `get_mosaic_metadata` (src 616-632), the mirror image of the
height scan: new_width counts down from cmp_img_min_width, with
cmp_height = cmp_img_min_height on acceptance. -/
def crop_width_loop (ra : FVal) (minh : ℕ) (eps : ℚ) : ℕ → MetaResult
  | 0 => { ret := 0, cmp_width := 0, cmp_height := 0 }
  | nw + 1 =>
    if fle (fabs (fsub ra (fdiv ((nw + 1 : ℕ) : ℚ) (minh : ℚ)))) eps = true then
      { ret := 0, cmp_width := nw + 1, cmp_height := minh }
    else if nw + 1 ≤ 20 then
      { ret := 1, cmp_width := 0, cmp_height := 0 }
    else crop_width_loop ra minh eps nw

/-- Size computation of `get_mosaic_metadata` (src 578-632) on a reference
image of w x h pixels and a candidate set with minimum dimensions
minw x minh: compare the two aspect quotients and run the matching scan. When
the reference cannot be read, the excluded bitmap decoder yields a zero-sized
image (the code's `if (!image)` check at src 583 only logs and continues), so
that case is the instance w = h = 0, making ref_aspect_ratio 0.0f/0.0f = NaN. -/
def get_mosaic_metadata_sizes (w h minw minh : ℕ) (eps : ℚ) : MetaResult :=
  let ra := fdiv (w : ℚ) (h : ℚ)
  let ca := fdiv (minw : ℚ) (minh : ℚ)
  if flt ca ra = true then crop_height_loop ra minw eps minh
  else crop_width_loop ra minh eps minw

/-- The gate of `main` (src 739 and 753): check = get_mosaic_metadata(...);
after the component weighing, `if (check) return 0;`. The blank-template
write, the ranking, the fitting and the mosaic write all sit after this gate,
so any output is produced only when the metadata call returned 0. -/
def main_produces_output (w h minw minh : ℕ) (eps : ℚ) : Bool :=
  (get_mosaic_metadata_sizes w h minw minh eps).ret == 0

/-- On a NaN reference aspect the width scan always fails through to the
floor and returns 1: every comparison against NaN is false. -/
theorem crop_width_loop_nan (minh : ℕ) (eps : ℚ) :
    ∀ k, 1 ≤ k → crop_width_loop FVal.nan minh eps k = ⟨1, 0, 0⟩ := by
  intro k
  induction k with
  | zero => omega
  | succ k ih =>
    intro _
    rw [crop_width_loop]
    have hnan : fsub FVal.nan (fdiv ((k + 1 : ℕ) : ℚ) (minh : ℚ)) =
        FVal.nan := by
      cases fdiv ((k + 1 : ℕ) : ℚ) (minh : ℚ) <;> rfl
    rw [hnan]
    have hfle : fle (fabs FVal.nan) eps = false := rfl
    rw [hfle, if_neg (by simp)]
    by_cases hk : k + 1 ≤ 20
    · rw [if_pos hk]
    · rw [if_neg hk]
      exact ih (by omega)

/-- C4: if the reference image cannot be read or decoded (the decoder yields
a zero-sized image and ref_aspect_ratio becomes NaN), `get_mosaic_metadata`
returns failure — the NaN poisons every aspect-error comparison until the
scan's floor fires — and `main`'s gate then ends the run before the template
write, the ranking, the fitting or the mosaic write produce anything. -/
theorem C4_invalid_reference_aborts (minw minh : ℕ) (eps : ℚ)
    (hw : 1 ≤ minw) :
    (get_mosaic_metadata_sizes 0 0 minw minh eps).ret = 1 ∧
      main_produces_output 0 0 minw minh eps = false := by
  have hra : fdiv ((0 : ℕ) : ℚ) ((0 : ℕ) : ℚ) = FVal.nan := by
    rw [fdiv, if_pos]
    simp
  have hmain : get_mosaic_metadata_sizes 0 0 minw minh eps = ⟨1, 0, 0⟩ := by
    rw [get_mosaic_metadata_sizes]
    simp only [hra]
    rw [if_neg (by cases fdiv ((minw : ℕ) : ℚ) ((minh : ℕ) : ℚ) <;> simp [flt])]
    exact crop_width_loop_nan minh eps minw hw
  rw [main_produces_output, hmain]
  exact ⟨rfl, rfl⟩

/-- Witness for C4 at concrete minimum candidate dimensions. -/
theorem C4_invalid_reference_aborts_witness :
    (get_mosaic_metadata_sizes 0 0 30 40 (1 / 100)).ret = 1 ∧
      main_produces_output 0 0 30 40 (1 / 100) = false :=
  C4_invalid_reference_aborts 30 40 (1 / 100) (by norm_num)

/-- The pixel-sample counter of `get_component_file_weight` (src 466-478):
count is incremented once per iteration of the cmp_height x cmp_width loops
and is the divisor of the subsequent r = sqrt(r / count) computation. -/
def weight_count (cmp_width cmp_height : ℕ) : ℕ :=
  (List.range cmp_height).foldl
    (fun acc _ => (List.range cmp_width).foldl (fun acc2 _ => acc2 + 1) acc) 0

/-- C5, code evidence: with a readable 100x100 reference but minimum candidate
dimensions 10x25 and ASP_RATIO_ERR = 1/100, the height scan never satisfies
the error bound and `get_mosaic_metadata` returns 1 leaving
mosaic.cmp_width = mosaic.cmp_height = 0; `main` nevertheless calls
`get_component_file_weight` before testing check (src 747 vs 753), whose
per-image loops then run zero times, so the division r / count at src 481 is
reached with count = 0 — the division by a zero sample count the claim rules
out. -/
theorem C5_zero_count_division :
    (get_mosaic_metadata_sizes 100 100 10 25 (1 / 100)).ret = 1 ∧
      (get_mosaic_metadata_sizes 100 100 10 25 (1 / 100)).cmp_width = 0 ∧
      (get_mosaic_metadata_sizes 100 100 10 25 (1 / 100)).cmp_height = 0 ∧
      weight_count 0 0 = 0 := by
  have hrun : get_mosaic_metadata_sizes 100 100 10 25 (1 / 100) =
      ⟨1, 0, 0⟩ := by
    norm_num [get_mosaic_metadata_sizes, crop_height_loop, fdiv, fsub, fabs,
      fle, flt, abs_le]
  rw [hrun]
  exact ⟨rfl, rfl, rfl, rfl⟩

/-- A left fold that only adds contributions equals its start plus the sum of
the contributions. -/
theorem foldl_add_rat (f : ℕ → ℚ) (l : List ℕ) (a : ℚ) :
    l.foldl (fun acc x => acc + f x) a = a + (l.map f).sum := by
  induction l generalizing a with
  | nil => simp
  | cons b t ih =>
    rw [List.foldl_cons, ih, List.map_cons, List.sum_cons]
    ring

/-- Sum of a function mapped over List.range n as a Finset.range sum. -/
theorem list_range_map_sum (f : ℕ → ℚ) (n : ℕ) :
    ((List.range n).map f).sum = ∑ x ∈ Finset.range n, f x := by
  induction n with
  | zero => simp
  | succ n ih =>
    rw [List.range_succ, Finset.sum_range_succ, List.map_append,
      List.sum_append, ih]
    simp

/-- Red-channel accumulator of `get_component_file_weight` (src 466-478):
r += rgb.red * rgb.red over y < cmp_height, x < cmp_width. The source
accumulates r, g, b and count in one pass over the same pixels; the four
accumulators are independent, so each is modelled by its own definition over
the identical loop structure. -/
def weight_sum_red (pix : ℕ → ℕ → rgb_t) (cmp_width cmp_height : ℕ) : ℚ :=
  (List.range cmp_height).foldl
    (fun acc y => (List.range cmp_width).foldl
      (fun acc2 x => acc2 + ((pix x y).red : ℚ) * ((pix x y).red : ℚ)) acc) 0

/-- Green-channel accumulator, same loop. -/
def weight_sum_green (pix : ℕ → ℕ → rgb_t) (cmp_width cmp_height : ℕ) : ℚ :=
  (List.range cmp_height).foldl
    (fun acc y => (List.range cmp_width).foldl
      (fun acc2 x => acc2 + ((pix x y).green : ℚ) * ((pix x y).green : ℚ))
      acc) 0

/-- Blue-channel accumulator, same loop. -/
def weight_sum_blue (pix : ℕ → ℕ → rgb_t) (cmp_width cmp_height : ℕ) : ℚ :=
  (List.range cmp_height).foldl
    (fun acc y => (List.range cmp_width).foldl
      (fun acc2 x => acc2 + ((pix x y).blue : ℚ) * ((pix x y).blue : ℚ))
      acc) 0

/-- Red channel value of the color signature, src 481-484:
r = sqrt(r / count). -/
noncomputable def component_weight_red (pix : ℕ → ℕ → rgb_t)
    (cmp_width cmp_height : ℕ) : ℝ :=
  Real.sqrt ((weight_sum_red pix cmp_width cmp_height : ℝ) /
    (weight_count cmp_width cmp_height : ℝ))

/-- Green channel value of the color signature. -/
noncomputable def component_weight_green (pix : ℕ → ℕ → rgb_t)
    (cmp_width cmp_height : ℕ) : ℝ :=
  Real.sqrt ((weight_sum_green pix cmp_width cmp_height : ℝ) /
    (weight_count cmp_width cmp_height : ℝ))

/-- Blue channel value of the color signature. -/
noncomputable def component_weight_blue (pix : ℕ → ℕ → rgb_t)
    (cmp_width cmp_height : ℕ) : ℝ :=
  Real.sqrt ((weight_sum_blue pix cmp_width cmp_height : ℝ) /
    (weight_count cmp_width cmp_height : ℝ))

/-- The 2x2 example region of the spec: red channel values 0, 0, 255, 255. -/
def ex_pix : ℕ → ℕ → rgb_t := fun _ y => if y = 0 then ⟨0, 0, 0⟩ else ⟨255, 0, 0⟩

/-- The sample counter counts exactly the pixels of the region. -/
theorem weight_count_eq (cmp_width cmp_height : ℕ) :
    weight_count cmp_width cmp_height = cmp_height * cmp_width := by
  rw [weight_count]
  have inner : ∀ a : ℕ, (List.range cmp_width).foldl (fun acc2 _ => acc2 + 1)
      a = a + cmp_width := by
    intro a
    induction cmp_width generalizing a with
    | zero => simp
    | succ w ih =>
      rw [List.range_succ, List.foldl_append]
      simp only [List.foldl_cons, List.foldl_nil]
      rw [ih]
      omega
  have outer : ∀ k a, (List.range k).foldl
      (fun acc _ => (List.range cmp_width).foldl (fun acc2 _ => acc2 + 1) acc)
      a = a + k * cmp_width := by
    intro k
    induction k with
    | zero => simp
    | succ k ih =>
      intro a
      rw [List.range_succ, List.foldl_append]
      simp only [List.foldl_cons, List.foldl_nil]
      rw [ih, inner]
      ring
  rw [outer]
  ring

/-- The red accumulator is the sum of the squared red values of the region. -/
theorem weight_sum_red_eq (pix : ℕ → ℕ → rgb_t) (cmp_width cmp_height : ℕ) :
    weight_sum_red pix cmp_width cmp_height =
      ∑ y ∈ Finset.range cmp_height, ∑ x ∈ Finset.range cmp_width,
        ((pix x y).red : ℚ) ^ 2 := by
  rw [weight_sum_red]
  have outer : ∀ k a, (List.range k).foldl
      (fun acc y => (List.range cmp_width).foldl
        (fun acc2 x => acc2 + ((pix x y).red : ℚ) * ((pix x y).red : ℚ)) acc)
      a = a + ∑ y ∈ Finset.range k, ∑ x ∈ Finset.range cmp_width,
        ((pix x y).red : ℚ) ^ 2 := by
    intro k
    induction k with
    | zero => simp
    | succ k ih =>
      intro a
      rw [List.range_succ, List.foldl_append, Finset.sum_range_succ]
      simp only [List.foldl_cons, List.foldl_nil]
      rw [ih,
        foldl_add_rat (fun x => ((pix x k).red : ℚ) * ((pix x k).red : ℚ)),
        list_range_map_sum,
        Finset.sum_congr rfl (fun x _ => (pow_two ((pix x k).red : ℚ)).symm)]
      ring
  rw [outer]
  ring

/-- The green accumulator is the sum of the squared green values. -/
theorem weight_sum_green_eq (pix : ℕ → ℕ → rgb_t) (cmp_width cmp_height : ℕ) :
    weight_sum_green pix cmp_width cmp_height =
      ∑ y ∈ Finset.range cmp_height, ∑ x ∈ Finset.range cmp_width,
        ((pix x y).green : ℚ) ^ 2 := by
  rw [weight_sum_green]
  have outer : ∀ k a, (List.range k).foldl
      (fun acc y => (List.range cmp_width).foldl
        (fun acc2 x => acc2 + ((pix x y).green : ℚ) * ((pix x y).green : ℚ))
        acc)
      a = a + ∑ y ∈ Finset.range k, ∑ x ∈ Finset.range cmp_width,
        ((pix x y).green : ℚ) ^ 2 := by
    intro k
    induction k with
    | zero => simp
    | succ k ih =>
      intro a
      rw [List.range_succ, List.foldl_append, Finset.sum_range_succ]
      simp only [List.foldl_cons, List.foldl_nil]
      rw [ih,
        foldl_add_rat (fun x => ((pix x k).green : ℚ) * ((pix x k).green : ℚ)),
        list_range_map_sum,
        Finset.sum_congr rfl (fun x _ => (pow_two ((pix x k).green : ℚ)).symm)]
      ring
  rw [outer]
  ring

/-- The blue accumulator is the sum of the squared blue values. -/
theorem weight_sum_blue_eq (pix : ℕ → ℕ → rgb_t) (cmp_width cmp_height : ℕ) :
    weight_sum_blue pix cmp_width cmp_height =
      ∑ y ∈ Finset.range cmp_height, ∑ x ∈ Finset.range cmp_width,
        ((pix x y).blue : ℚ) ^ 2 := by
  rw [weight_sum_blue]
  have outer : ∀ k a, (List.range k).foldl
      (fun acc y => (List.range cmp_width).foldl
        (fun acc2 x => acc2 + ((pix x y).blue : ℚ) * ((pix x y).blue : ℚ))
        acc)
      a = a + ∑ y ∈ Finset.range k, ∑ x ∈ Finset.range cmp_width,
        ((pix x y).blue : ℚ) ^ 2 := by
    intro k
    induction k with
    | zero => simp
    | succ k ih =>
      intro a
      rw [List.range_succ, List.foldl_append, Finset.sum_range_succ]
      simp only [List.foldl_cons, List.foldl_nil]
      rw [ih,
        foldl_add_rat (fun x => ((pix x k).blue : ℚ) * ((pix x k).blue : ℚ)),
        list_range_map_sum,
        Finset.sum_congr rfl (fun x _ => (pow_two ((pix x k).blue : ℚ)).symm)]
      ring
  rw [outer]
  ring

/-- C6: on every non-empty rectangular region the computed channel value is
the root of the mean of the squared per-pixel channel values — RMS, not the
arithmetic mean; the 2x2 region with red values [0, 0, 255, 255] yields red
signature sqrt(65025/2) = sqrt(32512.5), which is not 127.5. -/
theorem C6_rms_signature (pix : ℕ → ℕ → rgb_t) (cmp_width cmp_height : ℕ)
    (hw : 0 < cmp_width) (hh : 0 < cmp_height) :
    (component_weight_red pix cmp_width cmp_height =
      Real.sqrt ((∑ y ∈ Finset.range cmp_height, ∑ x ∈ Finset.range cmp_width,
        ((pix x y).red : ℝ) ^ 2) / ((cmp_width : ℝ) * (cmp_height : ℝ))) ∧
    component_weight_green pix cmp_width cmp_height =
      Real.sqrt ((∑ y ∈ Finset.range cmp_height, ∑ x ∈ Finset.range cmp_width,
        ((pix x y).green : ℝ) ^ 2) / ((cmp_width : ℝ) * (cmp_height : ℝ))) ∧
    component_weight_blue pix cmp_width cmp_height =
      Real.sqrt ((∑ y ∈ Finset.range cmp_height, ∑ x ∈ Finset.range cmp_width,
        ((pix x y).blue : ℝ) ^ 2) / ((cmp_width : ℝ) * (cmp_height : ℝ)))) ∧
    component_weight_red ex_pix 2 2 = Real.sqrt (65025 / 2) ∧
    component_weight_red ex_pix 2 2 ≠ 255 / 2 := by
  have hex : component_weight_red ex_pix 2 2 = Real.sqrt (65025 / 2) := by
    have e1 : weight_sum_red ex_pix 2 2 = 130050 := by
      norm_num [weight_sum_red, ex_pix, List.range_succ, List.range_zero,
        List.foldl_cons, List.foldl_nil]
    rw [component_weight_red, e1, weight_count_eq]
    norm_num
  refine ⟨⟨?_, ?_, ?_⟩, hex, ?_⟩
  · rw [component_weight_red, weight_sum_red_eq, weight_count_eq]
    congr 1
    push_cast
    rw [mul_comm]
  · rw [component_weight_green, weight_sum_green_eq, weight_count_eq]
    congr 1
    push_cast
    rw [mul_comm]
  · rw [component_weight_blue, weight_sum_blue_eq, weight_count_eq]
    congr 1
    push_cast
    rw [mul_comm]
  · rw [hex]
    intro hcontra
    have hsq : Real.sqrt ((65025 : ℝ) / 2) ^ 2 = (65025 : ℝ) / 2 :=
      Real.sq_sqrt (by norm_num)
    rw [hcontra] at hsq
    norm_num at hsq

/-- Witness for C6 at the 2x2 example region. -/
theorem C6_rms_signature_witness :
    component_weight_red ex_pix 2 2 =
        Real.sqrt ((∑ y ∈ Finset.range 2, ∑ x ∈ Finset.range 2,
          ((ex_pix x y).red : ℝ) ^ 2) / ((2 : ℝ) * (2 : ℝ))) ∧
      component_weight_red ex_pix 2 2 ≠ 255 / 2 :=
  ⟨(C6_rms_signature ex_pix 2 2 (by norm_num) (by norm_num)).1.1,
    (C6_rms_signature ex_pix 2 2 (by norm_num) (by norm_num)).2.2⟩

/-- The set of reference-image pixels read by the cell-scoring loops of
`get_mosaic_metadata` (src 654-697), as a decidable predicate. The outer loops
enumerate tile origins y = ky·(h/rows) while y < (h/rows)·rows and
x = kx·(w/cols) while x < (w/cols)·cols (the "tricky integer rounding" that
drops the remainder strips); the inner loops read pixel (i, j) for
x ≤ i < min(x + cmp_width, (w/cols)·cols) and
y ≤ j < min(y + cmp_height, (h/rows)·rows). -/
def scored_pixel (w h rows cols cmp_width cmp_height i j : ℕ) : Bool :=
  (List.range rows).any fun ky =>
    (List.range cols).any fun kx =>
      decide (ky * (h / rows) < (h / rows) * rows ∧
        kx * (w / cols) < (w / cols) * cols ∧
        ky * (h / rows) ≤ j ∧ j < ky * (h / rows) + cmp_height ∧
        j < (h / rows) * rows ∧
        kx * (w / cols) ≤ i ∧ i < kx * (w / cols) + cmp_width ∧
        i < (w / cols) * cols)

/-- C8, counterexample: reference 4x4, a 2x2 grid, tile size 1x1. The stride
is 4/2 = 2 but each tile reads only 1 pixel per axis, so pixel (1, 0) — inside
the floor(W/N)·N x floor(H/N)·N = 4x4 block the claim says is covered — is
never read by any cell's target computation. -/
theorem C8_counterexample :
    scored_pixel 4 4 2 2 1 1 1 0 = false ∧ 1 < 4 / 2 * 2 ∧ 0 < 4 / 2 * 2 := by
  decide

/-- C8, amended: every pixel read for cell scoring lies inside the
floor(W/N)·N by floor(H/N)·N block at the origin (the remainder strips are
silently excluded); and when the tile dimensions are at least the strides
floor(W/N) and floor(H/N), the scored set is exactly that block. (When a tile
dimension is smaller than its stride, interior gaps appear and the block is
not covered, as the counterexample shows.) -/
theorem C8_scored_region (w h rows cols cmp_width cmp_height i j : ℕ) :
    (scored_pixel w h rows cols cmp_width cmp_height i j = true →
        i < w / cols * cols ∧ j < h / rows * rows) ∧
      (w / cols ≤ cmp_width → h / rows ≤ cmp_height →
        (scored_pixel w h rows cols cmp_width cmp_height i j = true ↔
          i < w / cols * cols ∧ j < h / rows * rows)) := by
  have contain : scored_pixel w h rows cols cmp_width cmp_height i j = true →
      i < w / cols * cols ∧ j < h / rows * rows := by
    intro hs
    rw [scored_pixel, List.any_eq_true] at hs
    obtain ⟨ky, -, hs⟩ := hs
    rw [List.any_eq_true] at hs
    obtain ⟨kx, -, hs⟩ := hs
    rw [decide_eq_true_eq] at hs
    exact ⟨hs.2.2.2.2.2.2.2, hs.2.2.2.2.1⟩
  refine ⟨contain, ?_⟩
  intro hcw hch
  refine ⟨contain, ?_⟩
  intro hb
  obtain ⟨hi, hj⟩ := hb
  rcases Nat.eq_zero_or_pos (w / cols) with hz | hsx
  · rw [hz, Nat.zero_mul] at hi
    exact absurd hi (Nat.not_lt_zero i)
  rcases Nat.eq_zero_or_pos (h / rows) with hz | hsy
  · rw [hz, Nat.zero_mul] at hj
    exact absurd hj (Nat.not_lt_zero j)
  rw [scored_pixel, List.any_eq_true]
  have h1 : j / (h / rows) * (h / rows) ≤ j := Nat.div_mul_le_self j (h / rows)
  have h2 : i / (w / cols) * (w / cols) ≤ i := Nat.div_mul_le_self i (w / cols)
  have h3 : j < j / (h / rows) * (h / rows) + h / rows :=
    Nat.lt_div_mul_add hsy
  have h4 : i < i / (w / cols) * (w / cols) + w / cols :=
    Nat.lt_div_mul_add hsx
  have hky : j / (h / rows) < rows := by
    rw [Nat.div_lt_iff_lt_mul hsy, Nat.mul_comm]
    exact hj
  have hkx : i / (w / cols) < cols := by
    rw [Nat.div_lt_iff_lt_mul hsx, Nat.mul_comm]
    exact hi
  refine ⟨j / (h / rows), List.mem_range.mpr hky, ?_⟩
  rw [List.any_eq_true]
  refine ⟨i / (w / cols), List.mem_range.mpr hkx, ?_⟩
  rw [decide_eq_true_eq]
  exact ⟨lt_of_le_of_lt h1 hj, lt_of_le_of_lt h2 hi, h1, by omega, hj, h2,
    by omega, hi⟩

/-- Witness for C8: with tile size 2x2 equal to the strides on a 4x4
reference, the scored set is exactly the 4x4 block; pixel (1, 1) is scored. -/
theorem C8_scored_region_witness :
    4 / 2 ≤ 2 ∧
      (scored_pixel 4 4 2 2 2 2 1 1 = true ↔
        1 < 4 / 2 * 2 ∧ 1 < 4 / 2 * 2) :=
  ⟨by decide, (C8_scored_region 4 4 2 2 2 2 1 1).2 (by decide) (by decide)⟩

/-- Conversion of a float back into an unsigned char channel, as in the
compound assignments of `write_full_img` (src 289-293): C++ float-to-unsigned
integral conversion truncates toward zero; every value arising there lies in
[0, 255] (the blend stays between the two byte operands for f in [0, 1]), so
truncation toward zero is the floor. -/
def uchar_of_float (q : ℚ) : ℕ :=
  (Int.floor q).toNat

/-- The per-pixel color filter of `write_full_img` (src 279-298): when FILTER
is enabled, the branch chain adjusts the one channel of the candidate pixel
whose value in the cell's stored target signature cur_tile.rgb is strictly
greater than both others, by rgb.ch += FILTER_PERCENT * (cur_tile.rgb.ch -
rgb.ch) (the subtraction is int arithmetic, the scaling float); when no
channel is a strict maximum, no branch fires and the pixel is written
unchanged. -/
def write_full_img_pixel (cur : rgb_t) (fp : ℚ) (rgb : rgb_t) : rgb_t :=
  if cur.red > cur.green ∧ cur.red > cur.blue then
    { rgb with red := uchar_of_float ((rgb.red : ℚ) +
      fp * (((cur.red : ℤ) - (rgb.red : ℤ) : ℤ) : ℚ)) }
  else if cur.green > cur.red ∧ cur.green > cur.blue then
    { rgb with green := uchar_of_float ((rgb.green : ℚ) +
      fp * (((cur.green : ℤ) - (rgb.green : ℤ) : ℤ) : ℚ)) }
  else if cur.blue > cur.red ∧ cur.blue > cur.green then
    { rgb with blue := uchar_of_float ((rgb.blue : ℚ) +
      fp * (((cur.blue : ℤ) - (rgb.blue : ℤ) : ℤ) : ℚ)) }
  else rgb

/-- The Compositor color filter as the spec words it: identify the cell
target's dominant channel — the maximum of R, G, B — and adjust only that
channel of the candidate pixel to
candidateChannel + f * (targetChannel - candidateChannel), leaving the other
two channels unchanged (byte storage truncates). Stated from the spec for
comparison with `write_full_img_pixel`. -/
def spec_filter_pixel (target : rgb_t) (f : ℚ) (cand : rgb_t) : rgb_t :=
  let m := max target.red (max target.green target.blue)
  if target.red = m then
    { cand with red := uchar_of_float ((cand.red : ℚ) +
      f * ((target.red : ℚ) - (cand.red : ℚ))) }
  else if target.green = m then
    { cand with green := uchar_of_float ((cand.green : ℚ) +
      f * ((target.green : ℚ) - (cand.green : ℚ))) }
  else
    { cand with blue := uchar_of_float ((cand.blue : ℚ) +
      f * ((target.blue : ℚ) - (cand.blue : ℚ))) }

/-- C9: whenever the cell target has a strict dominant channel, the filter of
`write_full_img` writes exactly what the spec describes: only that channel is
modified, to candidate + f·(target − candidate), and the other two channels
are written unchanged. -/
theorem C9_filter_dominant_channel (t c : rgb_t) (f : ℚ)
    (hdom : (t.green < t.red ∧ t.blue < t.red) ∨
      (t.red < t.green ∧ t.blue < t.green) ∨
      (t.red < t.blue ∧ t.green < t.blue)) :
    write_full_img_pixel t f c = spec_filter_pixel t f c := by
  have harg : ∀ a b : ℕ, ((a : ℚ) + f * (((b : ℤ) - (a : ℤ) : ℤ) : ℚ)) =
      ((a : ℚ) + f * ((b : ℚ) - (a : ℚ))) := by
    intro a b
    push_cast
    ring
  rcases hdom with ⟨h1, h2⟩ | ⟨h1, h2⟩ | ⟨h1, h2⟩
  · have hm : max t.red (max t.green t.blue) = t.red :=
      Nat.max_eq_left (Nat.max_le.mpr ⟨Nat.le_of_lt h1, Nat.le_of_lt h2⟩)
    rw [write_full_img_pixel, spec_filter_pixel]
    simp only [hm]
    rw [if_pos ⟨h1, h2⟩, if_pos trivial, harg c.red t.red]
  · have hm : max t.red (max t.green t.blue) = t.green := by
      rw [Nat.max_eq_left (Nat.le_of_lt h2), Nat.max_eq_right (Nat.le_of_lt h1)]
    rw [write_full_img_pixel, spec_filter_pixel]
    simp only [hm]
    rw [if_neg (by omega), if_pos ⟨h1, h2⟩, if_neg (by omega), if_pos trivial,
      harg c.green t.green]
  · have hm : max t.red (max t.green t.blue) = t.blue := by
      rw [Nat.max_eq_right (Nat.le_of_lt h2), Nat.max_eq_right (Nat.le_of_lt h1)]
    rw [write_full_img_pixel, spec_filter_pixel]
    simp only [hm]
    rw [if_neg (by omega), if_neg (by omega), if_pos ⟨h1, h2⟩,
      if_neg (by omega), if_neg (by omega), harg c.blue t.blue]

/-- Witness for C9 at the spec's example: f = 1/2, target signature
(200, 10, 20) with dominant red 200, candidate pixel (100, 55, 66): written
red is 150, green and blue are untouched. -/
theorem C9_filter_dominant_channel_witness :
    write_full_img_pixel ⟨200, 10, 20⟩ (1 / 2) ⟨100, 55, 66⟩ =
        spec_filter_pixel ⟨200, 10, 20⟩ (1 / 2) ⟨100, 55, 66⟩ ∧
      write_full_img_pixel ⟨200, 10, 20⟩ (1 / 2) ⟨100, 55, 66⟩ =
        ⟨150, 55, 66⟩ :=
  ⟨C9_filter_dominant_channel ⟨200, 10, 20⟩ ⟨100, 55, 66⟩ (1 / 2)
      (Or.inl ⟨by norm_num, by norm_num⟩),
    by
      norm_num [write_full_img_pixel, uchar_of_float]
      rfl⟩

/-- C10: when no channel of the cell target is strictly greater than both
other channels (two or more channels tie for the maximum), no branch of the
filter fires: every stamped pixel equals the candidate pixel exactly, even
with the filter enabled and f > 0. -/
theorem C10_filter_tie_unchanged (t c : rgb_t) (f : ℚ)
    (htie : (t.red = t.green ∧ t.blue ≤ t.red) ∨
      (t.red = t.blue ∧ t.green ≤ t.red) ∨
      (t.green = t.blue ∧ t.red ≤ t.green)) :
    write_full_img_pixel t f c = c := by
  rw [write_full_img_pixel]
  rcases htie with ⟨h1, h2⟩ | ⟨h1, h2⟩ | ⟨h1, h2⟩ <;>
    rw [if_neg (by omega), if_neg (by omega), if_neg (by omega)]

/-- Witness for C10: target (5, 5, 3) has red and green tied for the maximum;
the candidate pixel (7, 8, 9) passes through unchanged with f = 1/2. -/
theorem C10_filter_tie_unchanged_witness :
    write_full_img_pixel ⟨5, 5, 3⟩ (1 / 2) ⟨7, 8, 9⟩ = ⟨7, 8, 9⟩ :=
  C10_filter_tie_unchanged ⟨5, 5, 3⟩ ⟨7, 8, 9⟩ (1 / 2)
    (Or.inl ⟨rfl, by norm_num⟩)
